import Mathlib

/-!
Verification development for the password-masking pipeline of
`src/filter/masking_dropped.py` (easypwd).  The Python functions `comb`,
`masking` (with its probability-cache build, right-bisection sampling,
template construction and streaming cleanup) and the corpus reader's
default validity predicate are embedded as executable Lean definitions.
Floats are modelled by exact rationals; the `random` module is modelled
by an explicit oracle supplying the draws of `random.random()` and the
permutations applied by `random.shuffle`; the `ZeroDivisionError` raised
by a zero normalization total is modelled by `Option`/`Except` error
values.
-/

namespace Easypwd

/-- Binomial coefficient exactly as the source computes it: the product of
`range(large + 1, n + 1)` integer-divided by the product of
`range(2, small + 1)`, where `large`/`small` are the larger/smaller of
`m` and `n - m`. -/
def comb (n m : ℕ) : ℕ :=
  let large := max m (n - m)
  let small := min m (n - m)
  let prod := (List.range' (large + 1) (n - large)).foldl (fun x y => x * y) 1
  let d := (List.range' 2 (small + 1 - 2)).foldl (fun x y => x * y) 1
  prod / d

/-- Unnormalized weight `comb(n, m) * p^m * (1-p)^(n-m)` accumulated by the
probability-cache build loop of `masking`. -/
def weight (p : ℚ) (n m : ℕ) : ℚ :=
  (comb n m : ℚ) * p ^ m * (1 - p) ^ (n - m)

/-- The running-sum loop of `masking`'s cache build: over the listed values
of `m` it accumulates `total += weight`, appending each running total to
`prob_list`.  Returns `(prob_list, total)`. -/
def buildLoop (p : ℚ) (n : ℕ) : List ℕ → ℚ → List ℚ × ℚ
  | [], total => ([], total)
  | m :: ms, total =>
    let total' := total + weight p n m
    let rest := buildLoop p n ms total'
    (total' :: rest.1, rest.2)

/-- Cumulative distribution `masking` builds (and caches) for item-count
`n`: running sums of the weights for `m` in
`range(min_masked, max_masked + 1)`, each divided by the final total.
Returns `none` when the total is zero, modelling the `ZeroDivisionError`
Python raises on float division by `0.0`. -/
def buildProbList (p : ℚ) (n min_masked max_masked : ℕ) : Option (List ℚ) :=
  let r := buildLoop p n (List.range' min_masked (max_masked + 1 - min_masked)) 0
  if r.2 = 0 then none else some (r.1.map (fun prob => prob / r.2))

/-- Fuel-indexed binary search mirroring `bisect.bisect_right`:
`while lo < hi: mid = (lo+hi)//2; if x < a[mid]: hi = mid else lo = mid+1`.
The fuel only makes the recursion structural; it never runs out when it
starts at `hi - lo` or more. -/
def bisectAux (l : List ℚ) (x : ℚ) : ℕ → ℕ → ℕ → ℕ
  | 0, lo, _ => lo
  | fuel + 1, lo, hi =>
    if lo < hi then
      if x < l.getD ((lo + hi) / 2) 0 then bisectAux l x fuel lo ((lo + hi) / 2)
      else bisectAux l x fuel ((lo + hi) / 2 + 1) hi
    else lo

/-- `bisect.bisect_right(l, x)` over the whole list. -/
def bisectRight (l : List ℚ) (x : ℚ) : ℕ :=
  bisectAux l x l.length 0 l.length

/-- Configuration of `masking`, mirroring its keyword parameters. -/
structure MaskCfg where
  p : ℚ
  min_visible : ℕ
  min_masked : ℕ
  mask : String
  dup_factor : ℕ
  cleanup : ℕ
  threshold4cleanup : ℕ

/-- Oracle for the `random` module: `draws k` is the value returned by the
`k`-th call of `random.random()`, and `shuf k l` is the reordering that the
`k`-th call of `random.shuffle` applies to the list `l` (its contract is
that the result is a permutation of `l`). -/
structure RandGen where
  draws : ℕ → ℚ
  shuf : ℕ → List Bool → List Bool

/-- The message of the exception `masking` raises for a password that is
too short. -/
def errMsg (cfg : MaskCfg) (pwd : List String) : String :=
  "The password should have at least " ++ toString (cfg.min_visible + cfg.min_masked) ++
    " items, but " ++ toString pwd.length ++ ": " ++ toString pwd

/-- The length check `masking` performs on each password: the exception is
raised when `max_masked = n - min_visible < min_masked` (Python integer
subtraction, hence the cast to `ℤ`). -/
def tooShort (cfg : MaskCfg) (pwd : List String) : Prop :=
  (pwd.length : ℤ) - cfg.min_visible < cfg.min_masked

instance (cfg : MaskCfg) (pwd : List String) : Decidable (tooShort cfg pwd) := by
  unfold tooShort; infer_instance

/-- The template index `pwd_mask_dict`: an insertion-ordered association
list from templates to the sets of source passwords that produced them. -/
abbrev Dict := List (List String × Finset (List String))

/-- `if masked_pwd not in pwd_mask_dict: pwd_mask_dict[masked_pwd] = set()`
followed by `pwd_mask_dict[masked_pwd].add(tuple(pwd))`. -/
def dictAdd (d : Dict) (tpl : List String) (w : List String) : Dict :=
  if d.any (fun e => e.1 = tpl) then
    d.map (fun e => if e.1 = tpl then (e.1, insert w e.2) else e)
  else d ++ [(tpl, {w})]

/-- One cleanup pass: delete every entry whose source-password set has at
most `t` elements, keeping the surviving entries untouched. -/
def cleanupDict (t : ℕ) (d : Dict) : Dict :=
  d.filter (fun e => t < e.2.card)

/-- One sampling event (one iteration of the `for _ in range(dup)` loop):
draw `idx` by right-bisection of the cached distribution, set
`m = min_masked + idx`, shuffle a boolean mask of `m` `True`s followed by
`n - m` `False`s, and replace the masked positions by the sentinel. -/
def sampleOnce (cfg : MaskCfg) (g : RandGen) (dist : List ℚ) (pwd : List String)
    (k : ℕ) : List String :=
  let idx := bisectRight dist (g.draws k)
  let m := cfg.min_masked + idx
  let is_masks := g.shuf k (List.replicate m true ++ List.replicate (pwd.length - m) false)
  List.zipWith (fun item is_mask => if is_mask then cfg.mask else item) pwd is_masks

/-- The `for _ in range(dup)` loop: perform `count` sampling events,
inserting each resulting template (with source `pwd`) into the dict and
advancing the oracle counter. -/
def sampleLoop (cfg : MaskCfg) (g : RandGen) (dist : List ℚ) (pwd : List String) :
    ℕ → Dict → ℕ → Dict × ℕ
  | 0, d, c => (d, c)
  | count + 1, d, c =>
    sampleLoop cfg g dist pwd count (dictAdd d (sampleOnce cfg g dist pwd c) pwd) (c + 1)

/-- Mutable state threaded through `masking`'s main loop. -/
structure MaskState where
  dict : Dict
  cache : List (ℕ × List ℚ)
  ctr : ℕ
  cur_round : ℕ

/-- Cache lookup/build for item-count `n`: reuse the cached distribution if
present, otherwise build it (appending it to the cache); `none` models the
`ZeroDivisionError` of a zero total. -/
def cacheStep (cfg : MaskCfg) (cache : List (ℕ × List ℚ)) (n : ℕ) :
    Option (List (ℕ × List ℚ) × List ℚ) :=
  match cache.lookup n with
  | some dist => some (cache, dist)
  | none =>
    match buildProbList cfg.p n cfg.min_masked (n - cfg.min_visible) with
    | some dist => some (cache ++ [(n, dist)], dist)
    | none => none

/-- One iteration of `masking`'s `for pwd in passwords` loop: length check,
cache lookup/build, `dup_factor` sampling events, then the cleanup pass
when the round counter reaches the cadence or the last password (index
`total - 1`) has been processed. -/
def processPwd (cfg : MaskCfg) (g : RandGen) (total eff : ℕ) (st : MaskState)
    (pwd : List String) (idx : ℕ) : Except String MaskState :=
  if tooShort cfg pwd then
    Except.error (errMsg cfg pwd)
  else
    match cacheStep cfg st.cache pwd.length with
    | none => Except.error "float division by zero"
    | some (cache', dist) =>
      if eff ≤ st.cur_round + 1 ∨ idx + 1 = total then
        Except.ok ⟨cleanupDict cfg.threshold4cleanup
          (sampleLoop cfg g dist pwd cfg.dup_factor st.dict st.ctr).1, cache',
          (sampleLoop cfg g dist pwd cfg.dup_factor st.dict st.ctr).2, 0⟩
      else
        Except.ok ⟨(sampleLoop cfg g dist pwd cfg.dup_factor st.dict st.ctr).1, cache',
          (sampleLoop cfg g dist pwd cfg.dup_factor st.dict st.ctr).2, st.cur_round + 1⟩

/-- `masking`'s main loop over the password list, tracking the position
`idx` of the current password (`cur_pwd_idx - 1` in the source). -/
def maskingGo (cfg : MaskCfg) (g : RandGen) (total eff : ℕ) :
    List (List String) → ℕ → MaskState → Except String MaskState
  | [], _, st => Except.ok st
  | pwd :: rest, idx, st =>
    match processPwd cfg g total eff st pwd idx with
    | Except.error e => Except.error e
    | Except.ok st' => maskingGo cfg g total eff rest (idx + 1) st'

/-- The cleanup cadence actually used: `math.ceil(cleanup // dup_factor)`,
i.e. the ceiling applied to the already floor-divided integer. -/
def effectiveCleanup (cleanup dup_factor : ℕ) : ℕ :=
  (Int.ceil ((cleanup / dup_factor : ℕ) : ℚ)).toNat

/-- The `masking` function: runs the main loop on an initially empty
template index and returns it; errors model the exceptions the Python
function can raise (the explicit length-check `Exception` and the two
`ZeroDivisionError` sites, `cleanup // dup_factor` and the normalization
by a zero total). -/
def masking (cfg : MaskCfg) (g : RandGen) (pwds : List (List String))
    (cache0 : List (ℕ × List ℚ)) : Except String Dict :=
  if cfg.dup_factor = 0 then Except.error "integer division or modulo by zero"
  else
    (maskingGo cfg g pwds.length (effectiveCleanup cfg.cleanup cfg.dup_factor)
      pwds 0 ⟨[], cache0, 0, 0⟩).map MaskState.dict

/-- The per-character splitting rule (`splitter == 'empty'`):
`list(line)`, one atomic unit per character. -/
def lineSplitsEmpty (line : List Char) : List (List Char) :=
  line.map (fun c => [c])

/-- The delimiter splitting rule: `line.split(splitter)` for a one-character
delimiter. -/
def lineSplitsDelim (sep : Char) (line : List Char) : List (List Char) :=
  line.splitOn sep

/-- The default validity predicate of the corpus reader:
`length_lower_bound <= len(line) <= length_upper_bound`, measured on the
raw line. -/
def is_valid (lb ub : ℕ) (line : List Char) : Bool :=
  decide (lb ≤ line.length) && decide (line.length ≤ ub)

/-- Consistency of a template with a source password: same length, and every
non-sentinel position holds the password's original atomic unit. -/
def TplConsistent (mask : String) (tpl w : List String) : Prop :=
  w.length = tpl.length ∧
    ∀ i, i < tpl.length → tpl.getD i "" ≠ mask → tpl.getD i "" = w.getD i ""

/-- Invariant of the template index: every stored source password is
consistent with its template. -/
def DictConsistent (mask : String) (d : Dict) : Prop :=
  ∀ e ∈ d, ∀ w ∈ e.2, TplConsistent mask e.1 w

/-- Deterministic oracle used by the concrete witness runs: every
`random.random()` draw is `0` and every `random.shuffle` is the identity
permutation. -/
def g0 : RandGen := ⟨fun _ => 0, fun _ l => l⟩

/-- Witness configuration for the sampling claims:
`p = 1/2, min_visible = 1, min_masked = 0, dup_factor = 1`. -/
def cfgC5 : MaskCfg := ⟨1/2, 1, 0, "\t", 1, 100000, 1⟩

/-- Witness configuration with `threshold4cleanup = 0`, under which a
template backed by one password survives the final cleanup. -/
def cfgW : MaskCfg := ⟨1/2, 1, 0, "\t", 1, 100000, 0⟩

/-- Degenerate configuration `p = 0` with `min_masked = 1`: every weight is
zero, so the normalization divides by zero. -/
def cfgC3z : MaskCfg := ⟨0, 0, 1, "\t", 1, 100000, 1⟩

/-- Configuration for the C3 witness: `p = 1/2, min_visible = 0,
min_masked = 1`. -/
def cfgC3w : MaskCfg := ⟨1/2, 0, 1, "\t", 1, 100000, 1⟩

/-- The configuration of the C9 scenario: `min_visible = 4, min_masked = 0`. -/
def cfgC9a : MaskCfg := ⟨1/2, 4, 0, "\t", 1, 100000, 1⟩

/-- The C9 scenario with `min_visible = 5` instead, which does violate the
length contract on a 4-unit password. -/
def cfgC9b : MaskCfg := ⟨1/2, 5, 0, "\t", 1, 100000, 1⟩

/-! ### Helper lemmas about `comb` -/

lemma foldl_mul_eq_prod (l : List ℕ) : l.foldl (fun x y => x * y) 1 = l.prod :=
  (List.prod_eq_foldl (l := l)).symm

lemma range'_prod_mul_factorial (a : ℕ) :
    ∀ k : ℕ, (List.range' (a + 1) k).prod * a.factorial = (a + k).factorial := by
  intro k
  induction k with
  | zero => simp
  | succ k ih =>
    rw [List.range'_concat, List.prod_append, List.prod_singleton]
    have h1 : (List.range' (a + 1) k).prod * (a + 1 + 1 * k) * a.factorial
        = (a + 1 + k) * ((List.range' (a + 1) k).prod * a.factorial) := by ring
    have h2 : a + (k + 1) = (a + k) + 1 := by omega
    rw [h1, ih, h2, Nat.factorial_succ]
    ring_nf

lemma small_fold_eq_factorial :
    ∀ s : ℕ, (List.range' 2 (s + 1 - 2)).prod = s.factorial := by
  intro s
  match s with
  | 0 => simp [Nat.factorial]
  | s + 1 =>
    have h := range'_prod_mul_factorial 1 s
    have hs : s + 1 + 1 - 2 = s := by omega
    have h2 : (1 : ℕ) + 1 = 2 := by omega
    rw [h2] at h
    simp [Nat.factorial] at h
    rw [hs, h]
    congr 1
    omega

/-- C2 core: the source's `comb` agrees with the binomial coefficient. -/
theorem comb_eq_choose (n m : ℕ) (h : m ≤ n) : comb n m = Nat.choose n m := by
  simp only [comb]
  set large := max m (n - m) with hL
  set small := min m (n - m) with hS
  have hls : small + large = n := by omega
  have hLn : large ≤ n := by omega
  rw [foldl_mul_eq_prod, foldl_mul_eq_prod, small_fold_eq_factorial]
  have hprod : (List.range' (large + 1) (n - large)).prod * large.factorial = n.factorial := by
    have h0 := range'_prod_mul_factorial large (n - large)
    rwa [Nat.add_sub_cancel' hLn] at h0
  have hchoose : Nat.choose n small * small.factorial * large.factorial = n.factorial := by
    have hl : large = n - small := by omega
    rw [hl]
    exact Nat.choose_mul_factorial_mul_factorial (by omega)
  have hp2 : (List.range' (large + 1) (n - large)).prod = Nat.choose n small * small.factorial := by
    apply Nat.eq_of_mul_eq_mul_right (Nat.factorial_pos large)
    rw [hprod, ← hchoose]
  rw [hp2, Nat.mul_div_cancel _ (Nat.factorial_pos small)]
  rcases le_or_lt m (n - m) with hc | hc
  · have he : small = m := by omega
    rw [he]
  · have he : small = n - m := by omega
    rw [he, Nat.choose_symm h]

/-! ### Helper lemmas about the cumulative-distribution build -/

lemma weight_nonneg {p : ℚ} (hp0 : 0 ≤ p) (hp1 : p ≤ 1) (n m : ℕ) :
    0 ≤ weight p n m := by
  unfold weight
  have h1 : (0 : ℚ) ≤ (comb n m : ℚ) := Nat.cast_nonneg _
  have h2 : (0 : ℚ) ≤ p ^ m := pow_nonneg hp0 m
  have h3 : (0 : ℚ) ≤ (1 - p) ^ (n - m) := pow_nonneg (by linarith) _
  positivity

lemma weight_pos {p : ℚ} (hp0 : 0 < p) (hp1 : p < 1) {n m : ℕ} (hm : m ≤ n) :
    0 < weight p n m := by
  unfold weight
  have h1 : (0 : ℚ) < (comb n m : ℚ) := by
    rw [comb_eq_choose n m hm]
    exact_mod_cast Nat.choose_pos hm
  have h2 : (0 : ℚ) < p ^ m := pow_pos hp0 m
  have h3 : (0 : ℚ) < (1 - p) ^ (n - m) := pow_pos (by linarith) _
  positivity

lemma buildLoop_length (p : ℚ) (n : ℕ) :
    ∀ (ms : List ℕ) (t0 : ℚ), (buildLoop p n ms t0).1.length = ms.length := by
  intro ms
  induction ms with
  | nil => intro t0; rfl
  | cons m ms ih => intro t0; simp [buildLoop, ih]

lemma buildLoop_snd (p : ℚ) (n : ℕ) :
    ∀ (ms : List ℕ) (t0 : ℚ),
      (buildLoop p n ms t0).2 = t0 + (ms.map (weight p n)).sum := by
  intro ms
  induction ms with
  | nil => intro t0; simp [buildLoop]
  | cons m ms ih => intro t0; simp [buildLoop, ih]; ring

lemma buildLoop_concat (p : ℚ) (n : ℕ) :
    ∀ (ms : List ℕ) (t0 : ℚ), ms ≠ [] →
      ∃ init, (buildLoop p n ms t0).1 = init ++ [(buildLoop p n ms t0).2] := by
  intro ms
  induction ms with
  | nil => intro t0 h; exact absurd rfl h
  | cons m ms ih =>
    intro t0 _
    match ms with
    | [] => exact ⟨[], rfl⟩
    | m' :: ms' =>
      obtain ⟨init, hinit⟩ := ih (t0 + weight p n m) (by simp)
      exact ⟨(t0 + weight p n m) :: init, by simp only [buildLoop] at hinit ⊢; rw [hinit]; rfl⟩

lemma buildLoop_last (p : ℚ) (n : ℕ) (ms : List ℕ) (t0 : ℚ) (h : ms ≠ []) :
    (buildLoop p n ms t0).1.getLast? = some (buildLoop p n ms t0).2 := by
  obtain ⟨init, hinit⟩ := buildLoop_concat p n ms t0 h
  rw [hinit, List.getLast?_concat]

lemma buildLoop_chain (p : ℚ) (n : ℕ) :
    ∀ (ms : List ℕ) (t0 : ℚ), (∀ m ∈ ms, 0 ≤ weight p n m) →
      List.Chain' (· ≤ ·) (t0 :: (buildLoop p n ms t0).1) := by
  intro ms
  induction ms with
  | nil => intro t0 _; simp [buildLoop]
  | cons m ms ih =>
    intro t0 hw
    have h1 := ih (t0 + weight p n m) (fun m' hm' => hw m' (by simp [hm']))
    simp only [buildLoop]
    rw [List.chain'_cons]
    constructor
    · have := hw m (by simp)
      linarith
    · exact h1

/-- Total of the build loop started at `0` is positive when every listed
weight is positive and the list is nonempty. -/
lemma buildLoop_total_pos (p : ℚ) (n : ℕ) (ms : List ℕ)
    (hw : ∀ m ∈ ms, 0 < weight p n m) (hne : ms ≠ []) :
    0 < (buildLoop p n ms 0).2 := by
  rw [buildLoop_snd, zero_add]
  apply List.sum_pos
  · intro x hx
    obtain ⟨m, hm, rfl⟩ := List.mem_map.mp hx
    exact hw m hm
  · simp [hne]

/-- When `0 < p < 1` and the feasible range is nonempty, the build never
divides by zero: it returns a distribution. -/
lemma buildProbList_isSome {p : ℚ} (hp0 : 0 < p) (hp1 : p < 1) {n mm Mm : ℕ}
    (hfeas : mm ≤ Mm) (hMn : Mm ≤ n) :
    ∃ l, buildProbList p n mm Mm = some l := by
  unfold buildProbList
  have hpos : 0 < (buildLoop p n (List.range' mm (Mm + 1 - mm)) 0).2 := by
    apply buildLoop_total_pos
    · intro m hm
      rw [List.mem_range'_1] at hm
      exact weight_pos hp0 hp1 (by omega)
    · have : (List.range' mm (Mm + 1 - mm)).length = Mm + 1 - mm := List.length_range' _ _ _
      intro hnil
      rw [hnil] at this
      simp at this
      omega
  rw [if_neg (by exact ne_of_gt hpos)]
  exact ⟨_, rfl⟩

/-- Monotonicity and final element of any successfully built distribution. -/
lemma buildProbList_chain_last {p : ℚ} {n mm Mm : ℕ} {l : List ℚ}
    (hp0 : 0 ≤ p) (hp1 : p ≤ 1) (hfeas : mm ≤ Mm)
    (hbuild : buildProbList p n mm Mm = some l) :
    List.Chain' (· ≤ ·) l ∧ l.getLast? = some 1 ∧ l.length = Mm + 1 - mm := by
  unfold buildProbList at hbuild
  set ms := List.range' mm (Mm + 1 - mm) with hms
  set r := buildLoop p n ms 0 with hr
  by_cases hz : r.2 = 0
  · rw [if_pos hz] at hbuild; exact absurd hbuild (by simp)
  · rw [if_neg hz] at hbuild
    have hl : l = r.1.map (fun prob => prob / r.2) := by
      exact (Option.some.injEq _ _ ▸ hbuild).symm
    have hwnn : ∀ m ∈ ms, 0 ≤ weight p n m := fun m _ => weight_nonneg hp0 hp1 n m
    have hnn : 0 ≤ r.2 := by
      rw [hr, buildLoop_snd, zero_add]
      apply List.sum_nonneg
      intro x hx
      obtain ⟨m, hm, rfl⟩ := List.mem_map.mp hx
      exact hwnn m hm
    have htpos : 0 < r.2 := lt_of_le_of_ne hnn (Ne.symm hz)
    have hchain : List.Chain' (· ≤ ·) ((0 : ℚ) :: r.1) := buildLoop_chain p n ms 0 hwnn
    have hne : ms ≠ [] := by
      have : ms.length = Mm + 1 - mm := List.length_range' _ _ _
      intro hnil
      rw [hnil] at this
      simp at this
      omega
    refine ⟨?_, ?_, ?_⟩
    · rw [hl]
      have h1 : List.Chain' (· ≤ ·) r.1 := hchain.tail
      rw [List.chain'_map]
      apply h1.imp
      intro a b hab
      exact (div_le_div_iff_of_pos_right htpos).mpr hab
    · rw [hl, List.getLast?_map, buildLoop_last p n ms 0 hne]
      simp [div_self hz]
    · have hlen := buildLoop_length p n ms 0
      rw [← hr] at hlen
      rw [hl, List.length_map, hlen, hms, List.length_range']

/-! ### Right-bisection characterization -/

lemma bisectAux_spec (l : List ℚ) (x : ℚ) :
    ∀ (fuel lo hi : ℕ), hi - lo ≤ fuel → lo ≤ hi → hi ≤ l.length →
      (∀ i, i < lo → l.getD i 0 ≤ x) →
      (∀ i, hi ≤ i → i < l.length → x < l.getD i 0) →
      (∀ i j, i ≤ j → j < l.length → l.getD i 0 ≤ l.getD j 0) →
      lo ≤ bisectAux l x fuel lo hi ∧ bisectAux l x fuel lo hi ≤ hi ∧
        (∀ i, i < bisectAux l x fuel lo hi → l.getD i 0 ≤ x) ∧
        (∀ i, bisectAux l x fuel lo hi ≤ i → i < l.length → x < l.getD i 0) := by
  intro fuel
  induction fuel with
  | zero =>
    intro lo hi hfuel hlh hhl hlow hhigh _
    have heq : hi = lo := by omega
    simp only [bisectAux]
    exact ⟨le_refl _, hlh, fun i hi' => hlow i hi',
      fun i hi' hil => hhigh i (by omega) hil⟩
  | succ fuel ih =>
    intro lo hi hfuel hlh hhl hlow hhigh hmono
    by_cases hlt : lo < hi
    · have hmlo : lo ≤ (lo + hi) / 2 := by omega
      have hmhi : (lo + hi) / 2 < hi := by omega
      by_cases hx : x < l.getD ((lo + hi) / 2) 0
      · have hrec := ih lo ((lo + hi) / 2) (by omega) hmlo (by omega)
          hlow
          (fun i hmi hil => lt_of_lt_of_le hx (hmono _ i hmi hil))
          hmono
        simp only [bisectAux, if_pos hlt, if_pos hx]
        exact ⟨hrec.1, le_trans hrec.2.1 (le_of_lt hmhi), hrec.2.2.1, hrec.2.2.2⟩
      · push_neg at hx
        have hrec := ih ((lo + hi) / 2 + 1) hi (by omega) (by omega) hhl
          (fun i hi' => le_trans (hmono i ((lo + hi) / 2) (by omega) (by omega)) hx)
          hhigh hmono
        simp only [bisectAux, if_pos hlt, if_neg (not_lt.mpr hx)]
        exact ⟨by omega, hrec.2.1, hrec.2.2.1, hrec.2.2.2⟩
    · simp only [bisectAux, if_neg hlt]
      exact ⟨le_refl _, hlh, fun i hi' => hlow i hi',
        fun i hi' hil => hhigh i (by omega) hil⟩

lemma bisectRight_spec (l : List ℚ) (x : ℚ)
    (hmono : ∀ i j, i ≤ j → j < l.length → l.getD i 0 ≤ l.getD j 0) :
    bisectRight l x ≤ l.length ∧
      (∀ i, i < bisectRight l x → l.getD i 0 ≤ x) ∧
      (∀ i, bisectRight l x ≤ i → i < l.length → x < l.getD i 0) := by
  have h := bisectAux_spec l x l.length 0 l.length (by omega) (by omega) (le_refl _)
    (fun i hi => absurd hi (Nat.not_lt_zero i))
    (fun i hi hil => absurd hil (by omega))
    hmono
  exact ⟨h.2.1, h.2.2.1, h.2.2.2⟩

lemma chain'_getD_mono {l : List ℚ} (h : List.Chain' (· ≤ ·) l) :
    ∀ i j, i ≤ j → j < l.length → l.getD i 0 ≤ l.getD j 0 := by
  intro i j hij hj
  rcases eq_or_lt_of_le hij with rfl | hlt
  · exact le_refl _
  · have hp := List.chain'_iff_pairwise.mp h
    have hg := List.pairwise_iff_get.mp hp ⟨i, by omega⟩ ⟨j, hj⟩ hlt
    rw [List.getD_eq_get _ _ (by omega : i < l.length), List.getD_eq_get _ _ hj]
    exact hg

lemma getLast?_getD {l : List ℚ} {a : ℚ} (h : l.getLast? = some a) :
    l.getD (l.length - 1) 0 = a := by
  rw [List.getLast?_eq_get?] at h
  rw [List.getD_eq_getD_get?, h]
  rfl

/-! ### Claim C1 -/

/-- C1: for every item-count `n` with feasible range
`[min_masked, max_masked]` (`min_masked ≤ max_masked`) and every configured
mask probability `p ∈ [0, 1]`, the cumulative distribution that `masking`
builds and caches for `n` — the successful result of `buildProbList`, which
accumulates the binomial-style weights `C(n,m)·p^m·(1-p)^(n-m)` over
increasing `m` and normalizes by the total — is monotonically non-decreasing
and its final element equals `1` (exactly, in the rational model of the
floats). -/
theorem c1_cumulative_monotone_final_one (p : ℚ) (n mm Mm : ℕ) (l : List ℚ)
    (hp0 : 0 ≤ p) (hp1 : p ≤ 1) (hfeas : mm ≤ Mm)
    (hbuild : buildProbList p n mm Mm = some l) :
    List.Chain' (· ≤ ·) l ∧ l.getLast? = some 1 :=
  ⟨(buildProbList_chain_last hp0 hp1 hfeas hbuild).1,
   (buildProbList_chain_last hp0 hp1 hfeas hbuild).2.1⟩

/-- C1 witness: the concrete instance `p = 1/2`, `n = 2`, range `[0, 1]`,
whose distribution is `[1/3, 1]`. -/
theorem c1_cumulative_monotone_final_one_witness :
    ((0:ℚ) ≤ 1/2 ∧ (1/2:ℚ) ≤ 1 ∧ (0:ℕ) ≤ 1 ∧
        buildProbList (1/2) 2 0 1 = some [1/3, 1]) ∧
      List.Chain' (· ≤ ·) [(1/3:ℚ), 1] ∧ ([(1/3:ℚ), 1]).getLast? = some 1 :=
  ⟨⟨by norm_num, by norm_num, by norm_num,
      by norm_num [buildProbList, buildLoop, weight, comb, List.range']⟩,
   c1_cumulative_monotone_final_one (1/2) 2 0 1 [1/3, 1] (by norm_num) (by norm_num)
     (by norm_num) (by norm_num [buildProbList, buildLoop, weight, comb, List.range'])⟩

/-! ### Claim C2 -/

/-- C2: for all integers `n ≥ 0` and `0 ≤ m ≤ n`, the source's `comb n m` —
the multiplicative reduction over the smaller of `m` and `n - m` — returns
exactly the binomial coefficient `C(n, m)`. -/
theorem c2_comb_is_binomial (n m : ℕ) (h : m ≤ n) : comb n m = Nat.choose n m :=
  comb_eq_choose n m h

/-- C2 witness: `comb 7 3 = C(7, 3)`. -/
theorem c2_comb_is_binomial_witness : 3 ≤ 7 ∧ comb 7 3 = Nat.choose 7 3 :=
  ⟨by decide, c2_comb_is_binomial 7 3 (by decide)⟩

/-- Shared bundle: on a successfully built distribution, a draw below `1`
bisects to an index inside the array, the selected cumulative value exceeds
the draw, all earlier values are `≤` the draw, and `min_masked + index`
stays `≤ max_masked`. -/
lemma bisect_range_bundle (p : ℚ) (n mm Mm : ℕ) (l : List ℚ) (d : ℚ)
    (hp0 : 0 ≤ p) (hp1 : p ≤ 1) (hfeas : mm ≤ Mm)
    (hbuild : buildProbList p n mm Mm = some l) (hd1 : d < 1) :
    bisectRight l d < l.length ∧
      (∀ i, i < bisectRight l d → l.getD i 0 ≤ d) ∧
      d < l.getD (bisectRight l d) 0 ∧
      mm + bisectRight l d ≤ Mm := by
  obtain ⟨hchain, hlast, hlen⟩ := buildProbList_chain_last hp0 hp1 hfeas hbuild
  have hmono := chain'_getD_mono hchain
  obtain ⟨hle, hlow, hhigh⟩ := bisectRight_spec l d hmono
  have hlpos : 0 < l.length := by omega
  have hlastD : l.getD (l.length - 1) 0 = 1 := getLast?_getD hlast
  have hlt : bisectRight l d < l.length := by
    by_contra hcon
    push_neg at hcon
    have h1 := hlow (l.length - 1) (by omega)
    rw [hlastD] at h1
    linarith
  exact ⟨hlt, hlow, hhigh _ (le_refl _) hlt, by omega⟩

/-! ### Claim C4 -/

/-- C4: for every draw value `d ∈ [0, 1)` and every cached cumulative
distribution (a successful `buildProbList` result for item-count `n`), the
right-bisection sampler selects the smallest index whose cumulative
probability strictly exceeds `d` (every earlier index has cumulative
probability `≤ d`, i.e. ties go to the higher index), that index is inside
the distribution array, and `m = min_masked + index` lies in
`[min_masked, max_masked]`. -/
theorem c4_sampled_m_in_feasible_range (p : ℚ) (n mm Mm : ℕ) (l : List ℚ) (d : ℚ)
    (hp0 : 0 ≤ p) (hp1 : p ≤ 1) (hfeas : mm ≤ Mm)
    (hbuild : buildProbList p n mm Mm = some l)
    (hd0 : 0 ≤ d) (hd1 : d < 1) :
    bisectRight l d < l.length ∧
      (∀ i, i < bisectRight l d → l.getD i 0 ≤ d) ∧
      d < l.getD (bisectRight l d) 0 ∧
      mm ≤ mm + bisectRight l d ∧ mm + bisectRight l d ≤ Mm := by
  obtain ⟨h1, h2, h3, h4⟩ := bisect_range_bundle p n mm Mm l d hp0 hp1 hfeas hbuild hd1
  exact ⟨h1, h2, h3, Nat.le_add_right _ _, h4⟩

/-- C4 witness: distribution `[1/3, 1]` for `p = 1/2`, `n = 2`,
range `[0, 1]`, draw `0`: the selected index is inside the array, the
cumulative value there exceeds the draw, and `m = 0 + index ≤ 1`. -/
theorem c4_sampled_m_in_feasible_range_witness :
    bisectRight [(1/3:ℚ), 1] 0 < ([(1/3:ℚ), 1]).length ∧
      (0:ℚ) < ([(1/3:ℚ), 1]).getD (bisectRight [(1/3:ℚ), 1] 0) 0 ∧
      0 + bisectRight [(1/3:ℚ), 1] 0 ≤ 1 := by
  have h := c4_sampled_m_in_feasible_range (1/2) 2 0 1 [1/3, 1] 0 (by norm_num)
    (by norm_num) (by norm_num)
    (by norm_num [buildProbList, buildLoop, weight, comb, List.range'])
    (by norm_num) (by norm_num)
  exact ⟨h.1, h.2.2.1, h.2.2.2.2⟩

/-! ### Template construction: counting and position lemmas -/

lemma zipWith_mask_getD (mask : String) :
    ∀ (pwd : List String) (bs : List Bool) (i : ℕ),
      i < (List.zipWith (fun item is_mask => if is_mask then mask else item) pwd bs).length →
      (List.zipWith (fun item is_mask => if is_mask then mask else item) pwd bs).getD i "" =
        if bs.getD i false then mask else pwd.getD i "" := by
  intro pwd
  induction pwd with
  | nil => intro bs i h; simp at h
  | cons a as ih =>
    intro bs i h
    match bs with
    | [] => simp at h
    | b :: bs' =>
      match i with
      | 0 => simp
      | i + 1 =>
        rw [List.zipWith_cons_cons] at h ⊢
        simp only [List.getD_cons_succ]
        exact ih bs' i (by simpa using h)

lemma zipWith_mask_countP (mask : String) :
    ∀ (pwd : List String) (bs : List Bool), mask ∉ pwd → pwd.length = bs.length →
      (List.zipWith (fun item is_mask => if is_mask then mask else item) pwd bs).countP
          (fun x => x = mask) = bs.countP (fun b => b) := by
  intro pwd
  induction pwd with
  | nil =>
    intro bs _ hlen
    have hb : bs = [] := by
      cases bs with
      | nil => rfl
      | cons b bs' => simp at hlen
    subst hb
    rfl
  | cons a as ih =>
    intro bs hm hlen
    match bs with
    | [] => simp at hlen
    | b :: bs' =>
      have hm' : mask ∉ as := fun hc => hm (List.mem_cons_of_mem a hc)
      have hma : ¬(a = mask) := fun hc => hm (by rw [hc]; exact List.mem_cons_self _ _)
      rw [List.zipWith_cons_cons, List.countP_cons, List.countP_cons,
        ih bs' hm' (by simpa using hlen)]
      cases b with
      | true => simp
      | false => simp [hma]

lemma countP_true_shuffled (m k : ℕ) {bs : List Bool}
    (hperm : bs.Perm (List.replicate m true ++ List.replicate k false)) :
    bs.countP (fun b => b) = m := by
  rw [hperm.countP_eq]
  have h1 : ∀ j, (List.replicate j true).countP (fun b => b) = j := by
    intro j
    induction j with
    | zero => rfl
    | succ j ihj => simp [List.replicate_succ, List.countP_cons, ihj]
  have h2 : ∀ j, (List.replicate j false).countP (fun b => b) = 0 := by
    intro j
    induction j with
    | zero => rfl
    | succ j ihj => simp [List.replicate_succ, List.countP_cons, ihj]
  rw [List.countP_append, h1, h2]
  omega

lemma countP_ne_of_countP_eq {t : List String} {mask : String} {m : ℕ}
    (hlen : t.countP (fun x => x = mask) = m) :
    t.countP (fun x => ¬(x = mask)) = t.length - m := by
  have h := List.length_eq_countP_add_countP (p := fun x => decide (x = mask)) t
  have hc : t.countP (fun x => ¬(x = mask)) =
      t.countP (fun a => ¬(decide (a = mask) = true)) := by
    apply List.countP_congr
    intro a _
    by_cases ha : a = mask <;> simp [ha]
  rw [hc]
  omega

/-! ### Claim C5 -/

/-- C5: every generated template has exactly `m` mask-sentinel positions and
`n - m` original-unit positions for the `m` actually drawn for that sample:
with a valid cached distribution, a draw in `[0, 1)`, the `random.shuffle`
contract (the shuffled mask list is a permutation of its input), and the
sentinel not occurring among the password's units, the template built by the
sampling event has length `n`, exactly `m = min_masked + index` sentinel
positions, `n - m` non-sentinel positions, and every non-sentinel position
holds the original atomic unit. -/
theorem c5_template_mask_counts (cfg : MaskCfg) (g : RandGen) (dist : List ℚ)
    (pwd : List String) (k : ℕ)
    (hp0 : 0 ≤ cfg.p) (hp1 : cfg.p ≤ 1)
    (hfeas : cfg.min_masked ≤ pwd.length - cfg.min_visible)
    (hbuild : buildProbList cfg.p pwd.length cfg.min_masked
      (pwd.length - cfg.min_visible) = some dist)
    (hd0 : 0 ≤ g.draws k) (hd1 : g.draws k < 1)
    (hshuf : ∀ l, (g.shuf k l).Perm l)
    (hmask : cfg.mask ∉ pwd) :
    cfg.min_masked ≤ cfg.min_masked + bisectRight dist (g.draws k) ∧
      cfg.min_masked + bisectRight dist (g.draws k) ≤ pwd.length - cfg.min_visible ∧
      (sampleOnce cfg g dist pwd k).length = pwd.length ∧
      (sampleOnce cfg g dist pwd k).countP (fun x => x = cfg.mask) =
        cfg.min_masked + bisectRight dist (g.draws k) ∧
      (sampleOnce cfg g dist pwd k).countP (fun x => ¬(x = cfg.mask)) =
        pwd.length - (cfg.min_masked + bisectRight dist (g.draws k)) ∧
      (∀ i, i < pwd.length → (sampleOnce cfg g dist pwd k).getD i "" ≠ cfg.mask →
        (sampleOnce cfg g dist pwd k).getD i "" = pwd.getD i "") := by
  have hrange := (bisect_range_bundle cfg.p pwd.length cfg.min_masked
    (pwd.length - cfg.min_visible) dist (g.draws k) hp0 hp1 hfeas hbuild hd1).2.2.2
  set m := cfg.min_masked + bisectRight dist (g.draws k) with hm
  have hmn : m ≤ pwd.length := le_trans hrange (Nat.sub_le _ _)
  set base := List.replicate m true ++ List.replicate (pwd.length - m) false with hbase
  have hperm : (g.shuf k base).Perm base := hshuf base
  have hbslen : (g.shuf k base).length = pwd.length := by
    rw [hperm.length_eq, hbase, List.length_append, List.length_replicate,
      List.length_replicate]
    omega
  have hlen : (sampleOnce cfg g dist pwd k).length = pwd.length := by
    simp only [sampleOnce, List.length_zipWith, ← hm, ← hbase, hbslen, min_self]
  have hcount : (sampleOnce cfg g dist pwd k).countP (fun x => x = cfg.mask) = m := by
    simp only [sampleOnce, ← hm, ← hbase]
    rw [zipWith_mask_countP cfg.mask pwd (g.shuf k base) hmask hbslen.symm]
    exact countP_true_shuffled m (pwd.length - m) hperm
  refine ⟨Nat.le_add_right _ _, hrange, hlen, hcount, ?_, ?_⟩
  · have := countP_ne_of_countP_eq hcount
    rw [hlen] at this
    exact this
  · intro i hi hne
    have hi' : i < (sampleOnce cfg g dist pwd k).length := by omega
    have hg := zipWith_mask_getD cfg.mask pwd (g.shuf k base) i (by
      simpa only [sampleOnce, ← hm, ← hbase] using hi')
    simp only [sampleOnce, ← hm, ← hbase] at hne ⊢
    rw [hg] at hne ⊢
    cases hb : (g.shuf k base).getD i false with
    | true => rw [hb] at hne; simp at hne
    | false => simp

/-! ### Run-level lemmas: the template index through `masking` -/

/-- Any sampling event produces a template consistent with its source
password, as long as the shuffle respects the `random.shuffle` contract. -/
lemma sampleOnce_consistent (cfg : MaskCfg) (g : RandGen) (dist : List ℚ)
    (pwd : List String) (k : ℕ) (hshuf : ∀ l, (g.shuf k l).Perm l) :
    TplConsistent cfg.mask (sampleOnce cfg g dist pwd k) pwd := by
  set m := cfg.min_masked + bisectRight dist (g.draws k) with hm
  set base := List.replicate m true ++ List.replicate (pwd.length - m) false with hbase
  have hperm : (g.shuf k base).Perm base := hshuf base
  have hbslen : pwd.length ≤ (g.shuf k base).length := by
    rw [hperm.length_eq, hbase, List.length_append, List.length_replicate,
      List.length_replicate]
    omega
  have hlen : (sampleOnce cfg g dist pwd k).length = pwd.length := by
    simp only [sampleOnce, List.length_zipWith, ← hm, ← hbase]
    omega
  constructor
  · exact hlen.symm
  · intro i hi hne
    have hi' : i < (sampleOnce cfg g dist pwd k).length := by omega
    have hg := zipWith_mask_getD cfg.mask pwd (g.shuf k base) i (by
      simpa only [sampleOnce, ← hm, ← hbase] using hi')
    simp only [sampleOnce, ← hm, ← hbase] at hne ⊢
    rw [hg] at hne ⊢
    cases hb : (g.shuf k base).getD i false with
    | true => rw [hb] at hne; simp at hne
    | false => simp

lemma dictAdd_consistent {mask : String} {d : Dict} {tpl w : List String}
    (hd : DictConsistent mask d) (hnew : TplConsistent mask tpl w) :
    DictConsistent mask (dictAdd d tpl w) := by
  intro e he w' hw'
  unfold dictAdd at he
  by_cases hc : d.any (fun e => e.1 = tpl) = true
  · rw [if_pos hc] at he
    obtain ⟨e0, he0, heq⟩ := List.mem_map.mp he
    by_cases hc0 : e0.1 = tpl
    · rw [if_pos hc0] at heq
      subst heq
      rcases Finset.mem_insert.mp hw' with rfl | hw2
      · rw [hc0]; exact hnew
      · exact hd e0 he0 w' hw2
    · rw [if_neg hc0] at heq
      subst heq
      exact hd e0 he0 w' hw'
  · rw [if_neg hc] at he
    rcases List.mem_append.mp he with h | h
    · exact hd e h w' hw'
    · have he2 : e = (tpl, {w}) := by simpa using h
      subst he2
      have hw2 : w' = w := by simpa using hw'
      subst hw2
      exact hnew

lemma sampleLoop_consistent (cfg : MaskCfg) (g : RandGen) (dist : List ℚ)
    (pwd : List String) (hshuf : ∀ k l, (g.shuf k l).Perm l) :
    ∀ (count : ℕ) (d : Dict) (c : ℕ), DictConsistent cfg.mask d →
      DictConsistent cfg.mask (sampleLoop cfg g dist pwd count d c).1 := by
  intro count
  induction count with
  | zero => intro d c hd; exact hd
  | succ count ih =>
    intro d c hd
    exact ih _ _ (dictAdd_consistent hd (sampleOnce_consistent cfg g dist pwd c (hshuf c)))

lemma cleanupDict_mem (t : ℕ) (d : Dict) (e : List String × Finset (List String)) :
    e ∈ cleanupDict t d ↔ e ∈ d ∧ t < e.2.card := by
  unfold cleanupDict
  rw [List.mem_filter]
  simp

lemma cleanupDict_consistent {mask : String} {t : ℕ} {d : Dict}
    (hd : DictConsistent mask d) : DictConsistent mask (cleanupDict t d) :=
  fun e he => hd e ((cleanupDict_mem t d e).mp he).1

lemma processPwd_consistent {cfg : MaskCfg} {g : RandGen} {total eff : ℕ}
    {st : MaskState} {pwd : List String} {idx : ℕ} {st' : MaskState}
    (hshuf : ∀ k l, (g.shuf k l).Perm l)
    (h : processPwd cfg g total eff st pwd idx = Except.ok st')
    (hd : DictConsistent cfg.mask st.dict) : DictConsistent cfg.mask st'.dict := by
  unfold processPwd at h
  by_cases hts : tooShort cfg pwd
  · rw [if_pos hts] at h
    exact absurd h (by simp)
  · rw [if_neg hts] at h
    match hcs : cacheStep cfg st.cache pwd.length with
    | none => rw [hcs] at h; exact absurd h (by simp)
    | some (cache', dist) =>
      rw [hcs] at h
      dsimp only at h
      have hloop := sampleLoop_consistent cfg g dist pwd hshuf cfg.dup_factor st.dict st.ctr hd
      by_cases hcond : eff ≤ st.cur_round + 1 ∨ idx + 1 = total
      · rw [if_pos hcond] at h
        simp only [Except.ok.injEq] at h
        subst h
        exact cleanupDict_consistent hloop
      · rw [if_neg hcond] at h
        simp only [Except.ok.injEq] at h
        subst h
        exact hloop

lemma maskingGo_consistent (cfg : MaskCfg) (g : RandGen) (total eff : ℕ)
    (hshuf : ∀ k l, (g.shuf k l).Perm l) :
    ∀ (pwds : List (List String)) (idx : ℕ) (st st' : MaskState),
      maskingGo cfg g total eff pwds idx st = Except.ok st' →
      DictConsistent cfg.mask st.dict → DictConsistent cfg.mask st'.dict := by
  intro pwds
  induction pwds with
  | nil =>
    intro idx st st' h hd
    simp only [maskingGo, Except.ok.injEq] at h
    subst h
    exact hd
  | cons pwd rest ih =>
    intro idx st st' h hd
    simp only [maskingGo] at h
    match hp : processPwd cfg g total eff st pwd idx with
    | Except.error e => rw [hp] at h; exact absurd h (by simp)
    | Except.ok st1 =>
      rw [hp] at h
      exact ih _ _ _ h (processPwd_consistent hshuf hp hd)

lemma masking_ok_consistent {cfg : MaskCfg} {g : RandGen}
    {pwds : List (List String)} {cache0 : List (ℕ × List ℚ)} {d : Dict}
    (hshuf : ∀ k l, (g.shuf k l).Perm l)
    (h : masking cfg g pwds cache0 = Except.ok d) : DictConsistent cfg.mask d := by
  unfold masking at h
  by_cases hdup : cfg.dup_factor = 0
  · rw [if_pos hdup] at h
    exact absurd h (by simp)
  · rw [if_neg hdup] at h
    match hg : maskingGo cfg g pwds.length (effectiveCleanup cfg.cleanup cfg.dup_factor)
        pwds 0 ⟨[], cache0, 0, 0⟩ with
    | Except.error e => rw [hg] at h; exact absurd h (by simp [Except.map])
    | Except.ok st' =>
      rw [hg] at h
      have hd : st'.dict = d := by simpa [Except.map] using h
      subst hd
      exact maskingGo_consistent cfg g _ _ hshuf pwds 0 _ st' hg
        (fun e he => absurd he (List.not_mem_nil e))

/-- Once the final password (index `total - 1`) has been processed, the
resulting state's dict is the image of a cleanup pass. -/
lemma processPwd_last_cleanup {cfg : MaskCfg} {g : RandGen} {total eff : ℕ}
    {st : MaskState} {pwd : List String} {idx : ℕ} {st' : MaskState}
    (hidx : idx + 1 = total)
    (h : processPwd cfg g total eff st pwd idx = Except.ok st') :
    ∃ d0, st'.dict = cleanupDict cfg.threshold4cleanup d0 := by
  unfold processPwd at h
  by_cases hts : tooShort cfg pwd
  · rw [if_pos hts] at h; exact absurd h (by simp)
  · rw [if_neg hts] at h
    match hcs : cacheStep cfg st.cache pwd.length with
    | none => rw [hcs] at h; exact absurd h (by simp)
    | some (cache', dist) =>
      rw [hcs] at h
      dsimp only at h
      rw [if_pos (Or.inr hidx)] at h
      simp only [Except.ok.injEq] at h
      subst h
      exact ⟨_, rfl⟩

lemma maskingGo_last_cleanup (cfg : MaskCfg) (g : RandGen) (total eff : ℕ) :
    ∀ (pwds : List (List String)) (idx : ℕ) (st st' : MaskState), pwds ≠ [] →
      idx + pwds.length = total →
      maskingGo cfg g total eff pwds idx st = Except.ok st' →
      ∃ d0, st'.dict = cleanupDict cfg.threshold4cleanup d0 := by
  intro pwds
  induction pwds with
  | nil => intro idx st st' hne; exact absurd rfl hne
  | cons pwd rest ih =>
    intro idx st st' _ hlen h
    simp only [maskingGo] at h
    match hp : processPwd cfg g total eff st pwd idx with
    | Except.error e => rw [hp] at h; exact absurd h (by simp)
    | Except.ok st1 =>
      rw [hp] at h
      match rest, hlen, h with
      | [], hlen, h =>
        simp only [maskingGo, Except.ok.injEq] at h
        subst h
        exact processPwd_last_cleanup (by simpa using hlen) hp
      | r :: rs, hlen, h =>
        exact ih (idx + 1) st1 st' (by simp) (by simp at hlen ⊢; omega) h

/-- The dict returned by a successful `masking` run holds only entries whose
source-password set is larger than the cleanup threshold. -/
lemma masking_ok_entries {cfg : MaskCfg} {g : RandGen}
    {pwds : List (List String)} {cache0 : List (ℕ × List ℚ)} {d : Dict}
    (h : masking cfg g pwds cache0 = Except.ok d) :
    ∀ e ∈ d, cfg.threshold4cleanup < e.2.card := by
  unfold masking at h
  by_cases hdup : cfg.dup_factor = 0
  · rw [if_pos hdup] at h
    exact absurd h (by simp)
  · rw [if_neg hdup] at h
    match hg : maskingGo cfg g pwds.length (effectiveCleanup cfg.cleanup cfg.dup_factor)
        pwds 0 ⟨[], cache0, 0, 0⟩ with
    | Except.error e => rw [hg] at h; exact absurd h (by simp [Except.map])
    | Except.ok st' =>
      rw [hg] at h
      have hd : st'.dict = d := by simpa [Except.map] using h
      match pwds, hg with
      | [], hg =>
        simp only [maskingGo, Except.ok.injEq] at hg
        subst hg
        simp only at hd
        subst hd
        intro e he
        exact absurd he (List.not_mem_nil e)
      | q :: qs, hg =>
        obtain ⟨d0, hd0⟩ := maskingGo_last_cleanup cfg g (q :: qs).length _
          (q :: qs) 0 _ st' (by simp) (by simp) hg
        intro e he
        rw [← hd, hd0] at he
        exact ((cleanupDict_mem _ _ e).mp he).2

/-! ### Error behaviour of `masking` -/

/-- A too-short password makes `processPwd` fail immediately, as a function
of the password alone: the state, the oracle and the position are not
consulted, so no template is generated for it. -/
lemma processPwd_short {cfg : MaskCfg} {g : RandGen} {total eff : ℕ}
    {st : MaskState} {pwd : List String} {idx : ℕ} (hts : tooShort cfg pwd) :
    processPwd cfg g total eff st pwd idx = Except.error (errMsg cfg pwd) := by
  unfold processPwd
  rw [if_pos hts]

/-- With a non-degenerate `p`, processing a long-enough password always
succeeds: the cache step cannot divide by zero. -/
lemma processPwd_ok_exists {cfg : MaskCfg} {g : RandGen} {total eff : ℕ}
    {st : MaskState} {pwd : List String} {idx : ℕ}
    (hp0 : 0 < cfg.p) (hp1 : cfg.p < 1) (hts : ¬ tooShort cfg pwd) :
    ∃ st', processPwd cfg g total eff st pwd idx = Except.ok st' := by
  have hfe : cfg.min_masked ≤ pwd.length - cfg.min_visible ∧
      cfg.min_visible ≤ pwd.length := by
    unfold tooShort at hts
    push_neg at hts
    omega
  have hcs : ∃ cache' dist, cacheStep cfg st.cache pwd.length = some (cache', dist) := by
    unfold cacheStep
    match st.cache.lookup pwd.length with
    | some dist => exact ⟨_, _, rfl⟩
    | none =>
      obtain ⟨l, hl⟩ := buildProbList_isSome hp0 hp1 hfe.1 (Nat.sub_le _ _)
      rw [hl]
      exact ⟨_, _, rfl⟩
  obtain ⟨cache', dist, hcs⟩ := hcs
  unfold processPwd
  rw [if_neg hts, hcs]
  dsimp only
  by_cases hcond : eff ≤ st.cur_round + 1 ∨ idx + 1 = total
  · rw [if_pos hcond]; exact ⟨_, rfl⟩
  · rw [if_neg hcond]; exact ⟨_, rfl⟩

lemma maskingGo_all_ok (cfg : MaskCfg) (g : RandGen) (total eff : ℕ)
    (hp0 : 0 < cfg.p) (hp1 : cfg.p < 1) :
    ∀ (pwds : List (List String)) (idx : ℕ) (st : MaskState),
      (∀ q ∈ pwds, ¬ tooShort cfg q) →
      ∃ st', maskingGo cfg g total eff pwds idx st = Except.ok st' := by
  intro pwds
  induction pwds with
  | nil => intro idx st _; exact ⟨st, rfl⟩
  | cons pwd rest ih =>
    intro idx st hok
    obtain ⟨st1, h1⟩ := @processPwd_ok_exists cfg g total eff st pwd idx
      hp0 hp1 (hok pwd (List.mem_cons_self _ _))
    obtain ⟨st', h2⟩ := ih (idx + 1) st1 (fun q hq => hok q (List.mem_cons_of_mem _ hq))
    refine ⟨st', ?_⟩
    simp only [maskingGo]
    rw [h1]
    exact h2

lemma maskingGo_first_short (cfg : MaskCfg) (g : RandGen) (total eff : ℕ)
    (hp0 : 0 < cfg.p) (hp1 : cfg.p < 1) :
    ∀ (pre : List (List String)) (pwd : List String) (post : List (List String))
      (idx : ℕ) (st : MaskState),
      (∀ q ∈ pre, ¬ tooShort cfg q) → tooShort cfg pwd →
      maskingGo cfg g total eff (pre ++ pwd :: post) idx st =
        Except.error (errMsg cfg pwd) := by
  intro pre
  induction pre with
  | nil =>
    intro pwd post idx st _ hts
    simp only [List.nil_append, maskingGo]
    rw [processPwd_short hts]
  | cons q pre' ih =>
    intro pwd post idx st hok hts
    obtain ⟨st1, h1⟩ := @processPwd_ok_exists cfg g total eff st q idx
      hp0 hp1 (hok q (List.mem_cons_self _ _))
    simp only [List.cons_append, maskingGo]
    rw [h1]
    exact ih pwd post (idx + 1) st1 (fun r hr => hok r (List.mem_cons_of_mem _ hr)) hts

lemma exists_first_short (cfg : MaskCfg) :
    ∀ (pwds : List (List String)), (∃ q ∈ pwds, tooShort cfg q) →
      ∃ pre pwd post, pwds = pre ++ pwd :: post ∧ tooShort cfg pwd ∧
        ∀ q ∈ pre, ¬ tooShort cfg q := by
  intro pwds
  induction pwds with
  | nil => intro h; obtain ⟨q, hq, _⟩ := h; exact absurd hq (List.not_mem_nil q)
  | cons a rest ih =>
    intro h
    by_cases ha : tooShort cfg a
    · exact ⟨[], a, rest, rfl, ha, by simp⟩
    · have hr : ∃ q ∈ rest, tooShort cfg q := by
        obtain ⟨q, hq, hts⟩ := h
        rcases List.mem_cons.mp hq with rfl | hq'
        · exact absurd hts ha
        · exact ⟨q, hq', hts⟩
      obtain ⟨pre, pwd, post, heq, hts, hok⟩ := ih hr
      refine ⟨a :: pre, pwd, post, by rw [heq]; rfl, hts, ?_⟩
      intro q hq
      rcases List.mem_cons.mp hq with rfl | hq'
      · exact ha
      · exact hok q hq'

/-! ### Claim C3 -/

/-- C3 amended: provided the configuration avoids the unrelated
division-by-zero errors (`0 < p < 1`, so the normalization total is
positive, and `dup_factor ≥ 1`, so the cadence division is defined),
`masking` raises an error iff its input list contains a password whose
length satisfies `n - min_visible < min_masked` (equivalently
`n < min_visible + min_masked`); the error message is the exception text of
the first such password (naming it), and the per-password step fails on a
too-short password purely as a function of the password — regardless of
state, position or oracle — so no template is generated for it.  For a list
with no such password, no exception is raised. -/
theorem c3_error_iff_too_short (cfg : MaskCfg) (g : RandGen)
    (pwds : List (List String)) (cache0 : List (ℕ × List ℚ))
    (hp0 : 0 < cfg.p) (hp1 : cfg.p < 1) (hdup : cfg.dup_factor ≠ 0) :
    ((∃ e, masking cfg g pwds cache0 = Except.error e) ↔
        ∃ q ∈ pwds, tooShort cfg q) ∧
      (∀ e, masking cfg g pwds cache0 = Except.error e →
        ∃ pre q post, pwds = pre ++ q :: post ∧ tooShort cfg q ∧
          (∀ r ∈ pre, ¬ tooShort cfg r) ∧ e = errMsg cfg q) ∧
      (∀ (total eff : ℕ) (st : MaskState) (q : List String) (idx : ℕ),
        tooShort cfg q →
        processPwd cfg g total eff st q idx = Except.error (errMsg cfg q)) := by
  have hmask : ∀ e, masking cfg g pwds cache0 = Except.error e ↔
      maskingGo cfg g pwds.length (effectiveCleanup cfg.cleanup cfg.dup_factor)
        pwds 0 ⟨[], cache0, 0, 0⟩ = Except.error e := by
    intro e
    unfold masking
    rw [if_neg hdup]
    match hg : maskingGo cfg g pwds.length (effectiveCleanup cfg.cleanup cfg.dup_factor)
        pwds 0 ⟨[], cache0, 0, 0⟩ with
    | Except.error e' => simp [Except.map]
    | Except.ok st' => simp [Except.map]
  have hiff : (∃ e, masking cfg g pwds cache0 = Except.error e) ↔
      ∃ q ∈ pwds, tooShort cfg q := by
    constructor
    · rintro ⟨e, he⟩
      by_contra hno
      push_neg at hno
      obtain ⟨st', hok⟩ := maskingGo_all_ok cfg g pwds.length
        (effectiveCleanup cfg.cleanup cfg.dup_factor) hp0 hp1 pwds 0
        ⟨[], cache0, 0, 0⟩ hno
      rw [hmask e, hok] at he
      exact absurd he (by simp)
    · intro hex
      obtain ⟨pre, q, post, heq, hts, hok⟩ := exists_first_short cfg pwds hex
      refine ⟨errMsg cfg q, ?_⟩
      rw [hmask, heq]
      exact maskingGo_first_short cfg g (pre ++ q :: post).length
        (effectiveCleanup cfg.cleanup cfg.dup_factor) hp0 hp1 pre q post 0 _ hok hts
  refine ⟨hiff, ?_, fun total eff st q idx hts => processPwd_short hts⟩
  intro e he
  obtain ⟨pre, q, post, heq, hts, hok⟩ :=
    exists_first_short cfg pwds (hiff.mp ⟨e, he⟩)
  refine ⟨pre, q, post, heq, hts, hok, ?_⟩
  have herr := maskingGo_first_short cfg g (pre ++ q :: post).length
    (effectiveCleanup cfg.cleanup cfg.dup_factor) hp0 hp1 pre q post 0
    (⟨[], cache0, 0, 0⟩ : MaskState) hok hts
  rw [hmask e, heq, herr] at he
  simpa using he.symm

/-- C3 witness: `p = 1/2`, a single one-unit password with
`min_visible = 0, min_masked = 1`: the password is long enough, and the iff
instance applies. -/
theorem c3_error_iff_too_short_witness :
    (∃ e, masking cfgC3w g0 [["a"]] [] = Except.error e) ↔
      ∃ q ∈ [(["a"] : List String)], tooShort cfgC3w q :=
  (c3_error_iff_too_short cfgC3w g0 [["a"]] [] (by norm_num [cfgC3w])
    (by norm_num [cfgC3w]) (by norm_num [cfgC3w])).1

/-- C3 counterexample to the original claim: with the configured probability
`p = 0` (allowed by the spec's `p ∈ [0,1]`) and `min_masked = 1`, every
weight is zero and `masking` raises a division-by-zero error even though the
input list contains no too-short password — so "raises an error only if a
password is too short" fails as stated. -/
theorem c3_zero_p_division_error :
    masking cfgC3z g0 [["a"]] [] = Except.error "float division by zero" ∧
      ¬ tooShort cfgC3z ["a"] := by
  constructor
  · norm_num [masking, maskingGo, processPwd, cacheStep, buildProbList, buildLoop, weight,
      comb, sampleLoop, sampleOnce, bisectRight, bisectAux, dictAdd, cleanupDict,
      effectiveCleanup, tooShort, g0, cfgC3z, List.range', List.lookup, Except.map,
      List.zipWith, List.replicate]
  · norm_num [tooShort, cfgC3z]

/-! ### Claim C5 witness -/

/-- C5 witness: `p = 1/2`, password `["a", "b"]`, distribution `[1/3, 1]`,
draw `0`, identity shuffle: the template has the password's length and
exactly `m = min_masked + index` sentinel positions. -/
theorem c5_template_mask_counts_witness :
    (sampleOnce cfgC5 g0 [1/3, 1] ["a", "b"] 0).length =
        (["a", "b"] : List String).length ∧
      (sampleOnce cfgC5 g0 [1/3, 1] ["a", "b"] 0).countP (fun x => x = cfgC5.mask) =
        cfgC5.min_masked + bisectRight [(1/3 : ℚ), 1] (g0.draws 0) := by
  have h := c5_template_mask_counts cfgC5 g0 [1/3, 1] ["a", "b"] 0
    (by norm_num [cfgC5]) (by norm_num [cfgC5]) (by norm_num [cfgC5])
    (by norm_num [cfgC5, buildProbList, buildLoop, weight, comb, List.range'])
    (by norm_num [g0]) (by norm_num [g0])
    (fun l => List.Perm.refl l)
    (by decide)
  exact ⟨h.2.2.1, h.2.2.2.1⟩

/-! ### Claim C6 -/

/-- C6: a cleanup pass deletes exactly the entries whose source-password set
has size at most `threshold4cleanup` and keeps every surviving entry (with
its set) unchanged, so the entry count never grows; and the mapping a
successful `masking` run returns (its last step is always a cleanup pass)
contains no entry with at most `threshold4cleanup` source passwords — in
particular every returned entry's set is non-empty. -/
theorem c6_cleanup_exact (cfg : MaskCfg) (g : RandGen)
    (pwds : List (List String)) (cache0 : List (ℕ × List ℚ)) (d : Dict) :
    (∀ (t : ℕ) (d0 : Dict) (e : List String × Finset (List String)),
        (e ∈ cleanupDict t d0 ↔ e ∈ d0 ∧ t < e.2.card) ∧
          (cleanupDict t d0).length ≤ d0.length) ∧
      (masking cfg g pwds cache0 = Except.ok d →
        ∀ e ∈ d, cfg.threshold4cleanup < e.2.card ∧ e.2.Nonempty) := by
  constructor
  · intro t d0 e
    exact ⟨cleanupDict_mem t d0 e, List.length_filter_le _ _⟩
  · intro h e he
    have h1 := masking_ok_entries h e he
    exact ⟨h1, Finset.card_pos.mp (by omega)⟩

/-- C6 witness: a run with `threshold4cleanup = 0` whose surviving entry is
backed by one password; the theorem yields its positivity and non-emptiness. -/
theorem c6_cleanup_exact_witness :
    0 < ({(["a", "b"] : List String)} : Finset (List String)).card ∧
      ({(["a", "b"] : List String)} : Finset (List String)).Nonempty := by
  have h := (c6_cleanup_exact cfgW g0 [["a", "b"]] []
      [((["a", "b"] : List String), {(["a", "b"] : List String)})]).2
    (by norm_num [masking, maskingGo, processPwd, cacheStep, buildProbList, buildLoop, weight,
      comb, sampleLoop, sampleOnce, bisectRight, bisectAux, dictAdd, cleanupDict,
      effectiveCleanup, tooShort, g0, cfgW, List.range', List.lookup, Except.map,
      List.zipWith, List.replicate])
    ((["a", "b"] : List String), {(["a", "b"] : List String)}) (by simp)
  exact h

/-! ### Claim C7 -/

/-- C7 (code bug): the claim says the effective cadence is
`ceil(cleanup / dup_factor)`, and the source even wraps the computation in
`math.ceil` — but it applies it to the already floor-divided integer
`cleanup // dup_factor`, so the ceiling is a no-op.  At
`cleanup = 3, dup_factor = 2` the code yields `1` while the claimed ceiling
is `2`. -/
theorem c7_effective_cadence_is_floor :
    effectiveCleanup 3 2 = 1 ∧ Int.ceil ((3 : ℚ) / 2) = 2 := by
  constructor
  · norm_num [effectiveCleanup]
  · norm_num [Int.ceil_eq_iff]

/-! ### Claim C8 -/

/-- C8 counterexample: the default validity predicate measures the raw
character length, not the atomic-unit count after splitting.  For the line
`"ab cd"` with the space delimiter and bounds `[2, 2]`, the unit count is 2
(in bounds) but the predicate rejects the line (raw length 5). -/
theorem c8_delimiter_counterexample :
    ¬ ((is_valid 2 2 ['a', 'b', ' ', 'c', 'd'] = true) ↔
      (2 ≤ (lineSplitsDelim ' ' ['a', 'b', ' ', 'c', 'd']).length ∧
        (lineSplitsDelim ' ' ['a', 'b', ' ', 'c', 'd']).length ≤ 2)) := by
  decide

/-- C8 amended: the default validity predicate accepts a line iff the RAW
character length lies within the bounds; this coincides with the
atomic-unit count exactly for the per-character splitting rule (but not in
general for delimiter-based rules). -/
theorem c8_default_validity_raw_length (lb ub : ℕ) (line : List Char) :
    is_valid lb ub line = true ↔
      lb ≤ (lineSplitsEmpty line).length ∧ (lineSplitsEmpty line).length ≤ ub := by
  unfold is_valid lineSplitsEmpty
  simp [List.length_map]

/-! ### Claim C9 -/

/-- C9 counterexample: `min_visible = 4, min_masked = 0` on a password of 4
atomic units raises no exception — the check `n - min_visible < min_masked`
is `0 < 0`, which is false — so `masking` returns normally (here with an
empty mapping, since the lone sampled template is cleaned up). -/
theorem c9_no_error_at_exact_bound :
    masking cfgC9a g0 [["a", "b", "c", "d"]] [] = Except.ok [] := by
  norm_num [masking, maskingGo, processPwd, cacheStep, buildProbList, buildLoop, weight,
    comb, sampleLoop, sampleOnce, bisectRight, bisectAux, dictAdd, cleanupDict,
    effectiveCleanup, tooShort, g0, cfgC9a, List.range', List.lookup, Except.map,
    List.zipWith, List.replicate]

/-- C9 amended: the exact bound `n = min_visible + min_masked` is accepted
(no error), and the input-contract violation fires exactly when
`n < min_visible + min_masked` — e.g. `min_visible = 5` on the same 4-unit
password raises the exception naming it. -/
theorem c9_error_needs_strictly_short :
    masking cfgC9a g0 [["a", "b", "c", "d"]] [] = Except.ok [] ∧
      masking cfgC9b g0 [["a", "b", "c", "d"]] [] =
        Except.error (errMsg cfgC9b ["a", "b", "c", "d"]) := by
  constructor
  · norm_num [masking, maskingGo, processPwd, cacheStep, buildProbList, buildLoop, weight,
      comb, sampleLoop, sampleOnce, bisectRight, bisectAux, dictAdd, cleanupDict,
      effectiveCleanup, tooShort, g0, cfgC9a, List.range', List.lookup, Except.map,
      List.zipWith, List.replicate]
  · norm_num [masking, maskingGo, processPwd, cacheStep, buildProbList, buildLoop, weight,
      comb, sampleLoop, sampleOnce, bisectRight, bisectAux, dictAdd, cleanupDict,
      effectiveCleanup, tooShort, g0, cfgC9b, List.range', List.lookup, Except.map,
      List.zipWith, List.replicate]

/-! ### Claim C10 -/

/-- C10: for every template in the mapping a successful `masking` run
returns and every password in its source set, the password has the same
length as the template, and every position where the template holds a value
different from the mask sentinel holds exactly the password's atomic unit at
that position — a template only ever maps to passwords it could have been
produced from (given the `random.shuffle` permutation contract). -/
theorem c10_template_source_consistent (cfg : MaskCfg) (g : RandGen)
    (pwds : List (List String)) (cache0 : List (ℕ × List ℚ)) (d : Dict)
    (hshuf : ∀ k l, (g.shuf k l).Perm l)
    (h : masking cfg g pwds cache0 = Except.ok d) :
    ∀ e ∈ d, ∀ w ∈ e.2, w.length = e.1.length ∧
      ∀ i, i < e.1.length → e.1.getD i "" ≠ cfg.mask →
        e.1.getD i "" = w.getD i "" :=
  fun e he w hw => masking_ok_consistent hshuf h e he w hw

/-- C10 witness: in the `threshold4cleanup = 0` run the surviving entry maps
the unmasked template of `["a", "b"]` to `["a", "b"]` itself; the theorem
instance gives the length equality and the position-0 agreement. -/
theorem c10_template_source_consistent_witness :
    ((["a", "b"] : List String).length = (["a", "b"] : List String).length) ∧
      ((["a", "b"] : List String).getD 0 "" ≠ cfgW.mask →
        (["a", "b"] : List String).getD 0 "" = (["a", "b"] : List String).getD 0 "") := by
  have h := c10_template_source_consistent cfgW g0 [["a", "b"]] []
    [((["a", "b"] : List String), {(["a", "b"] : List String)})]
    (fun k l => List.Perm.refl l)
    (by norm_num [masking, maskingGo, processPwd, cacheStep, buildProbList, buildLoop, weight,
      comb, sampleLoop, sampleOnce, bisectRight, bisectAux, dictAdd, cleanupDict,
      effectiveCleanup, tooShort, g0, cfgW, List.range', List.lookup, Except.map,
      List.zipWith, List.replicate])
    ((["a", "b"] : List String), {(["a", "b"] : List String)}) (by simp)
    ["a", "b"] (by simp)
  exact ⟨h.1, fun hne => h.2 0 (by norm_num) hne⟩

end Easypwd
